import Mathlib

/-
  Verification of the record transcoder in fileConvert.py of the
  dataEnrichmentTool repository.

  The embedding models Python dictionaries as ordered association lists
  (List (String × String)): inserting an existing key updates the value in
  place, inserting a fresh key appends at the end, exactly as Python
  insertion-ordered dicts behave.  A CSV file is modelled as a header row
  (List String) plus data rows (List (List String)); csv.DictReader pairs
  each data row with the header row.  JSON documents are ordered lists of
  records, which is what json.load / json.dump preserve.
-/

namespace DataEnrichment

/-- A Record is an insertion-ordered string-to-string mapping, as produced by
Python dicts in fileConvert.py. -/
abbrev Record := List (String × String)

/-- The ingest table of csv_to_json (fileConvert.py lines 15-29), verbatim. -/
def header_mapping : Record := [
  ("Supplier Company", "companyName"),
  ("Supplier First Name", "firstName"),
  ("Supplier Last Name", "lastName"),
  ("Supplier Email", "emailAddress"),
  ("Supplier Phone", "phone"),
  ("Supplier Street", "companyStreet"),
  ("Supplier City", "companyCity"),
  ("Supplier State", "companyState"),
  ("Supplier Zip Code", "companyZipCode"),
  ("Supplier Country", "companyCountry"),
  ("Site Name", "siteName"),
  ("Site ID", "siteID"),
  ("Additional Contact Info", "additionalContactInfo")]

/-- The default field set of csv_to_json (fileConvert.py lines 31-55), verbatim. -/
def new_json_values : Record := [
  ("zi_c_name", ""),
  ("zi_c_company_id", ""),
  ("jobTitle", ""),
  ("zi_c_company_name", ""),
  ("zi_c_phone", ""),
  ("zi_c_url", ""),
  ("zi_c_linkedin_url", ""),
  ("zi_c_naics6", ""),
  ("sectorTitle", ""),
  ("primaryIndustry", ""),
  ("zi_c_employees", ""),
  ("zi_c_street", ""),
  ("zi_c_city", ""),
  ("zi_c_state", ""),
  ("zi_c_zip", ""),
  ("zi_c_country", ""),
  ("zi_c_location_id", ""),
  ("needsContact", ""),
  ("newContactFound", ""),
  ("personId", ""),
  ("contactMatchCriteria", ""),
  ("enrichmentStatus", "Success"),
  ("errorMessage", "")]

/-- The egress table of json_to_csv (fileConvert.py lines 93-131), verbatim. -/
def csv_mapping : Record := [
  ("companyName", "Supplier Company"),
  ("companyStreet", "Supplier Street"),
  ("companyCity", "Supplier City"),
  ("companyState", "Supplier State"),
  ("companyZipCode", "Supplier Zip Code"),
  ("companyCountry", "Supplier Country"),
  ("firstName", "Supplier First Name"),
  ("lastName", "Supplier Last Name"),
  ("emailAddress", "Supplier Email"),
  ("phone", "Supplier Phone"),
  ("siteName", "Site Name"),
  ("siteID", "Site ID"),
  ("additionalContactInfo", "Additional Contact Info"),
  ("zi_c_name", "Zoominfo Company Name"),
  ("zi_c_company_id", "Zoominfo Company ID"),
  ("zi_c_company_name", "Company HQ Name"),
  ("zi_c_phone", "Company Phone"),
  ("zi_c_url", "Website"),
  ("zi_c_linkedin_url", "Company LinkedIn URL"),
  ("jobTitle", "Contact Job Title"),
  ("zi_c_naics6", "6-digit NAICS Code"),
  ("sectorTitle", "Sector Title"),
  ("primaryIndustry", "Primary Industry"),
  ("zi_c_employees", "Number of Employees"),
  ("zi_c_street", "Company Street"),
  ("zi_c_city", "Company City"),
  ("zi_c_state", "Company State"),
  ("zi_c_zip", "Company Zip Code"),
  ("zi_c_country", "Company Country"),
  ("zi_c_location_id", "Company Location ID"),
  ("needsContact", "Needs New Contact"),
  ("newContactFound", "New Contact Found"),
  ("personId", "Contact Person ID"),
  ("contactMatchCriteria", "Contact Match Criteria"),
  ("company_match_criteria", "Company Match Criteria"),
  ("enrichmentStatus", "Enrichment Status"),
  ("errorMessage", "Error Message")]

/-- Python d.get(k): value of the first (and in a dict, only) pair with key k. -/
def dictGet (d : Record) (k : String) : Option String :=
  (d.find? (fun p => p.1 == k)).map Prod.snd

/-- Python d.get(k, fb): lookup with a fallback value. -/
def dictGetD (d : Record) (k fb : String) : String :=
  (dictGet d k).getD fb

/-- Python d[k] = v on an insertion-ordered dict: update the existing entry in
place, or append a fresh entry at the end. -/
def dictInsert : Record → String → String → Record
  | [], k, v => [(k, v)]
  | p :: rest, k, v => if p.1 = k then (k, v) :: rest else p :: dictInsert rest k v

/-- Fold a sequence of insertions into a dict, as a Python loop of d[k] = v or
d.update(pairs) does. -/
def insertAll (init : Record) (pairs : Record) : Record :=
  pairs.foldl (fun d p => dictInsert d p.1 p.2) init

/-- The ingest translation header_mapping.get(key, key) of fileConvert.py line 71. -/
def translateIngest (k : String) : String := dictGetD header_mapping k k

/-- The egress translation csv_mapping.get(key, key) of fileConvert.py lines 154 and 165. -/
def translateEgress (k : String) : String := dictGetD csv_mapping k k

/-- The row dict csv.DictReader builds from the header row and one data row:
successive insertion of (header, cell) pairs. -/
def rowToDict (headers cells : List String) : Record :=
  insertAll [] (headers.zip cells)

/-- The mapped_row loop of csv_to_json (lines 69-72): re-key every entry
through translateIngest, building a fresh dict. -/
def mapRow (row : Record) : Record :=
  insertAll [] (row.map (fun p => (translateIngest p.1, p.2)))

/-- mapped_row.update(new_json_values) of csv_to_json line 75. -/
def addDefaults (m : Record) : Record := insertAll m new_json_values

/-- The full per-row transformation of csv_to_json: remap headers, then merge
the defaults on top. -/
def processRow (row : Record) : Record := addDefaults (mapRow row)

/-- Python str.strip on the underlying character list: drop leading and
trailing whitespace. -/
def stripChars (l : List Char) : List Char :=
  ((l.dropWhile Char.isWhitespace).reverse.dropWhile Char.isWhitespace).reverse

/-- Python str.strip of a string. -/
def pyStrip (s : String) : String := ⟨stripChars s.data⟩

/-- The blank-row test of csv_to_json line 65, applied to the dict row: some
value is non-empty after stripping. -/
def rowNonBlank (row : Record) : Bool :=
  row.any (fun p => pyStrip p.2 != "")

/-- The data list csv_to_json builds (lines 57-76): one processed record per
row whose dict passes the blank test, in input order. -/
def csvToJsonData (headers : List String) : List (List String) → List Record
  | [] => []
  | cells :: rest =>
    if rowNonBlank (rowToDict headers cells) then
      processRow (rowToDict headers cells) :: csvToJsonData headers rest
    else
      csvToJsonData headers rest

/-- The keys of a record, in order (Python entry.keys()). -/
def recordKeys (r : Record) : List String := r.map Prod.fst

/-- Membership of a key in the all_keys set of json_to_csv lines 137-139. -/
def keyInData (data : List Record) (k : String) : Bool :=
  data.any (fun r => (recordKeys r).contains k)

/-- mapped_keys of json_to_csv line 142: csv_mapping keys, in declaration
order, that occur somewhere in the data. -/
def mappedKeys (data : List Record) : List String :=
  (csv_mapping.map Prod.fst).filter (fun k => keyInData data k)

/-- One step of the seen-set scan of json_to_csv lines 145-151: the
accumulator is the pair (seen, collected unmapped keys). -/
def addUnseen (acc : List String × List String) (k : String) : List String × List String :=
  if acc.1.contains k then acc else (k :: acc.1, acc.2 ++ [k])

/-- unmapped_keys of json_to_csv lines 145-151: keys met while scanning every
record in order that are not already seen, seeding seen with mapped_keys. -/
def unmappedKeys (data : List Record) : List String :=
  ((data.flatMap recordKeys).foldl addUnseen (mappedKeys data, [])).2

/-- combined_keys of json_to_csv line 153. -/
def combinedKeys (data : List Record) : List String :=
  mappedKeys data ++ unmappedKeys data

/-- headers of json_to_csv line 154: combined keys translated through the
egress table with identity fallback. -/
def headersOf (data : List Record) : List String :=
  (combinedKeys data).map translateEgress

/-- The per-record re-keying dict of json_to_csv line 165. -/
def rekeyRecord (r : Record) : Record :=
  insertAll [] (r.map (fun p => (translateEgress p.1, p.2)))

/-- The cell csv.DictWriter emits for one record under one header name:
the re-keyed value, or the empty cell when the key is absent. -/
def outputCell (r : Record) (h : String) : String :=
  dictGetD (rekeyRecord r) h ""

/-- The full output row csv.DictWriter emits for one record. -/
def outputRow (r : Record) (headers : List String) : List String :=
  headers.map (outputCell r)

/-- count_records of fileConvert.py lines 169-183: skip one header row, count
rows with some cell non-empty after trimming. -/
def countRecords : List (List String) → Nat
  | [] => 0
  | _ :: rows => (rows.filter (fun r => r.any (fun v => pyStrip v != ""))).length

/-- Modelled from the spec wording of claim C3: the order of first appearance
of names across the record sequence.  Used only on the specification side of
refinement statements, to compare with the seen-set scan of the source. -/
def firstOccurrences (l : List String) : List String :=
  l.foldr (fun a acc => a :: acc.filter (fun x => x != a)) []

/-- The last value inserted for a key in a pair sequence: the value a Python
dict built by successive insertion ends up holding. -/
def lookupLast : Record → String → Option String
  | [], _ => none
  | p :: rest, k =>
    match lookupLast rest k with
    | some v => some v
    | none => if p.1 = k then some p.2 else none

/-! General lemmas about the dict model. -/

theorem dictGet_nil (k : String) : dictGet [] k = none := rfl

theorem dictGet_cons (p : String × String) (d : Record) (k : String) :
    dictGet (p :: d) k = if p.1 = k then some p.2 else dictGet d k := by
  by_cases h : p.1 = k <;> simp [dictGet, List.find?_cons, h]

theorem dictGet_dictInsert (d : Record) (k v k' : String) :
    dictGet (dictInsert d k v) k' = if k = k' then some v else dictGet d k' := by
  induction d with
  | nil =>
    by_cases h : k = k' <;> simp [dictInsert, dictGet_cons, dictGet_nil, h]
  | cons p rest ih =>
    by_cases hp : p.1 = k
    · simp only [dictInsert, if_pos hp]
      rw [dictGet_cons, dictGet_cons]
      simp only [hp]
      by_cases h : k = k' <;> simp [h]
    · simp only [dictInsert, if_neg hp]
      rw [dictGet_cons, ih]
      by_cases h : k = k'
      · subst h
        simp [hp]
      · by_cases hp' : p.1 = k' <;> simp [h, hp', dictGet_cons]

theorem insertAll_nil_pairs (init : Record) : insertAll init [] = init := rfl

theorem insertAll_cons (init : Record) (p : String × String) (pairs : Record) :
    insertAll init (p :: pairs) = insertAll (dictInsert init p.1 p.2) pairs := rfl

theorem insertAll_append (init : Record) (a b : Record) :
    insertAll init (a ++ b) = insertAll (insertAll init a) b :=
  List.foldl_append _ _ a b

theorem lookupLast_nil (k : String) : lookupLast [] k = none := rfl

theorem lookupLast_cons (p : String × String) (rest : Record) (k : String) :
    lookupLast (p :: rest) k =
      match lookupLast rest k with
      | some v => some v
      | none => if p.1 = k then some p.2 else none := rfl

theorem dictGet_insertAll (pairs : Record) (init : Record) (k : String) :
    dictGet (insertAll init pairs) k =
      match lookupLast pairs k with
      | some v => some v
      | none => dictGet init k := by
  induction pairs generalizing init with
  | nil => simp [insertAll_nil_pairs, lookupLast_nil]
  | cons p rest ih =>
    rw [insertAll_cons, ih, lookupLast_cons]
    cases hres : lookupLast rest k with
    | some v => rfl
    | none =>
      simp only [dictGet_dictInsert]
      by_cases h : p.1 = k <;> simp [h]

theorem dictGet_insertAll_nil (pairs : Record) (k : String) :
    dictGet (insertAll [] pairs) k = lookupLast pairs k := by
  rw [dictGet_insertAll]
  cases lookupLast pairs k <;> rfl

theorem lookupLast_append (a b : Record) (k : String) :
    lookupLast (a ++ b) k =
      match lookupLast b k with
      | some v => some v
      | none => lookupLast a k := by
  induction a with
  | nil => simp [lookupLast_nil]; cases lookupLast b k <;> rfl
  | cons p rest ih =>
    rw [List.cons_append, lookupLast_cons, ih, lookupLast_cons]
    cases lookupLast b k <;> cases lookupLast rest k <;> rfl

theorem lookupLast_mem (l : Record) (k v : String) (h : lookupLast l k = some v) :
    (k, v) ∈ l := by
  induction l with
  | nil => simp [lookupLast_nil] at h
  | cons p rest ih =>
    rw [lookupLast_cons] at h
    cases hres : lookupLast rest k with
    | some w =>
      rw [hres] at h
      cases h
      exact List.mem_cons_of_mem _ (ih hres)
    | none =>
      rw [hres] at h
      by_cases hp : p.1 = k
      · simp [hp] at h
        have hpe : p = (k, v) := by
          cases p
          simp_all
        rw [← hpe]
        exact List.mem_cons_self _ _
      · simp [hp] at h

theorem lookupLast_isSome_of_mem (l : Record) (k v : String) (h : (k, v) ∈ l) :
    ∃ w, lookupLast l k = some w := by
  induction l with
  | nil => simp at h
  | cons p rest ih =>
    rw [lookupLast_cons]
    cases hres : lookupLast rest k with
    | some w => exact ⟨w, rfl⟩
    | none =>
      rcases List.mem_cons.mp h with heq | hmem
      · subst heq
        exact ⟨v, by simp⟩
      · rcases ih hmem with ⟨w, hw⟩
        rw [hw] at hres
        cases hres

theorem lookupLast_eq_none_of_forall (l : Record) (k : String)
    (h : ∀ p ∈ l, p.1 ≠ k) : lookupLast l k = none := by
  induction l with
  | nil => rfl
  | cons p rest ih =>
    rw [lookupLast_cons, ih (fun q hq => h q (List.mem_cons_of_mem _ hq))]
    simp [h p (List.mem_cons_self _ _)]

theorem lookupLast_unique (l : Record) (k v : String)
    (hmem : (k, v) ∈ l) (huniq : ∀ p ∈ l, p.1 = k → p.2 = v) :
    lookupLast l k = some v := by
  induction l with
  | nil => simp at hmem
  | cons p rest ih =>
    rw [lookupLast_cons]
    cases hres : lookupLast rest k with
    | some w =>
      have hwmem : (k, w) ∈ rest := lookupLast_mem rest k w hres
      have hv := huniq (k, w) (List.mem_cons_of_mem _ hwmem) rfl
      simp only at hv
      rw [hv]
    | none =>
      rcases List.mem_cons.mp hmem with heq | hmem'
      · have h1 : p.1 = k := by rw [← heq]
        have h2 : p.2 = v := by rw [← heq]
        simp [h1, h2]
      · rcases lookupLast_isSome_of_mem rest k v hmem' with ⟨w, hw⟩
        rw [hw] at hres
        cases hres

theorem dictGet_mem (d : Record) (k v : String) (h : dictGet d k = some v) :
    (k, v) ∈ d := by
  unfold dictGet at h
  cases hf : d.find? (fun p => p.1 == k) with
  | none => rw [hf] at h; cases h
  | some q =>
    rw [hf] at h
    have hq : q ∈ d := List.mem_of_find?_eq_some hf
    have hk := List.find?_some hf
    have hk' : q.1 = k := by simpa using hk
    have hv : q.2 = v := by simpa using h
    have hqe : q = (k, v) := by cases q; simp_all
    exact hqe ▸ hq

theorem dictGet_eq_none_iff (d : Record) (k : String) :
    dictGet d k = none ↔ ∀ p ∈ d, p.1 ≠ k := by
  unfold dictGet
  simp [List.find?_eq_none]

theorem dictGet_of_mem_nodup (d : Record) (k v : String)
    (hnd : (d.map Prod.fst).Nodup) (hmem : (k, v) ∈ d) :
    dictGet d k = some v := by
  induction d with
  | nil => simp at hmem
  | cons p rest ih =>
    rw [dictGet_cons]
    rcases List.mem_cons.mp hmem with heq | hmem'
    · have h1 : p.1 = k := by rw [← heq]
      have h2 : p.2 = v := by rw [← heq]
      simp [h1, h2]
    · have hk : k ∈ rest.map Prod.fst := by
        have : (k, v).1 ∈ rest.map Prod.fst := List.mem_map_of_mem Prod.fst hmem'
        simpa using this
      have hnd' : (p.1 :: rest.map Prod.fst).Nodup := by
        rw [List.map_cons] at hnd
        exact hnd
      have hpk : p.1 ≠ k := by
        intro hc
        exact (List.nodup_cons.mp hnd').1 (hc ▸ hk)
      simp only [if_neg hpk]
      exact ih (List.nodup_cons.mp hnd').2 hmem'

theorem nodupKeys_functional (l : Record) (k a b : String)
    (hnd : (l.map Prod.fst).Nodup) (ha : (k, a) ∈ l) (hb : (k, b) ∈ l) : a = b := by
  have h1 := dictGet_of_mem_nodup l k a hnd ha
  have h2 := dictGet_of_mem_nodup l k b hnd hb
  rw [h1] at h2
  cases h2
  rfl

theorem map_fst_dictInsert_mem (d : Record) (k v : String)
    (h : k ∈ d.map Prod.fst) :
    (dictInsert d k v).map Prod.fst = d.map Prod.fst := by
  induction d with
  | nil => simp at h
  | cons p rest ih =>
    by_cases hp : p.1 = k
    · simp [dictInsert, hp]
    · have h' : k ∈ rest.map Prod.fst := by
        rcases List.mem_map.mp h with ⟨q, hq, hqk⟩
        rcases List.mem_cons.mp hq with hq' | hq'
        · exact absurd (hq' ▸ hqk) hp
        · exact hqk ▸ List.mem_map_of_mem Prod.fst hq'
      simp [dictInsert, hp, ih h']

theorem map_fst_dictInsert_not_mem (d : Record) (k v : String)
    (h : k ∉ d.map Prod.fst) :
    (dictInsert d k v).map Prod.fst = d.map Prod.fst ++ [k] := by
  induction d with
  | nil => simp [dictInsert]
  | cons p rest ih =>
    have hp : p.1 ≠ k := by
      intro hc
      exact h (by simp [hc])
    have h' : k ∉ rest.map Prod.fst := by
      intro hc
      exact h (by simp [hc])
    simp [dictInsert, hp, ih h']

theorem dictInsert_not_mem_eq_append (d : Record) (k v : String)
    (h : k ∉ d.map Prod.fst) :
    dictInsert d k v = d ++ [(k, v)] := by
  induction d with
  | nil => simp [dictInsert]
  | cons p rest ih =>
    have hp : p.1 ≠ k := by
      intro hc
      exact h (by simp [hc])
    have h' : k ∉ rest.map Prod.fst := by
      intro hc
      exact h (by simp [hc])
    simp [dictInsert, hp, ih h']

theorem keysNodup_dictInsert (d : Record) (k v : String)
    (h : (d.map Prod.fst).Nodup) : ((dictInsert d k v).map Prod.fst).Nodup := by
  by_cases hm : k ∈ d.map Prod.fst
  · rw [map_fst_dictInsert_mem d k v hm]
    exact h
  · rw [map_fst_dictInsert_not_mem d k v hm]
    simp [List.nodup_append, h, hm]

theorem keysNodup_insertAll (pairs : Record) (init : Record)
    (h : (init.map Prod.fst).Nodup) :
    ((insertAll init pairs).map Prod.fst).Nodup := by
  induction pairs generalizing init with
  | nil => exact h
  | cons p rest ih =>
    rw [insertAll_cons]
    exact ih _ (keysNodup_dictInsert init p.1 p.2 h)

theorem keysNodup_insertAll_nil (pairs : Record) :
    ((insertAll [] pairs).map Prod.fst).Nodup :=
  keysNodup_insertAll pairs [] (by simp)

theorem insertAll_nil_of_nodup (pairs : Record)
    (h : (pairs.map Prod.fst).Nodup) : insertAll [] pairs = pairs := by
  induction pairs using List.reverseRecOn with
  | nil => rfl
  | append_singleton l p ih =>
    rw [insertAll_append]
    have hl : (l.map Prod.fst).Nodup := by
      rw [List.map_append] at h
      exact (List.nodup_append.mp h).1
    have hp : p.1 ∉ l.map Prod.fst := by
      rw [List.map_append] at h
      intro hc
      exact (List.nodup_append.mp h).2.2 hc (by simp)
    rw [ih hl]
    show dictInsert l p.1 p.2 = l ++ [p]
    rw [dictInsert_not_mem_eq_append l p.1 p.2 hp]

theorem mem_insertAll_nil (pairs : Record) (q : String × String)
    (h : q ∈ insertAll [] pairs) : q ∈ pairs := by
  have h1 : dictGet (insertAll [] pairs) q.1 = some q.2 :=
    dictGet_of_mem_nodup _ q.1 q.2 (keysNodup_insertAll_nil pairs) (by cases q; exact h)
  rw [dictGet_insertAll_nil] at h1
  have := lookupLast_mem pairs q.1 q.2 h1
  cases q
  exact this

/-! Concrete facts about the three fixed tables, checked by evaluation. -/

theorem header_mapping_keys_nodup : (header_mapping.map Prod.fst).Nodup := by decide

theorem csv_mapping_keys_nodup : (csv_mapping.map Prod.fst).Nodup := by decide

theorem new_json_values_keys_nodup : (new_json_values.map Prod.fst).Nodup := by decide

theorem ingest_egress_inverse :
    ∀ p ∈ header_mapping, dictGet csv_mapping p.2 = some p.1 := by decide

theorem egress_preimage_unique :
    ∀ p ∈ header_mapping, ∀ q ∈ csv_mapping, q.2 = p.1 → q.1 = p.2 := by decide

theorem ingest_key_not_default :
    ∀ p ∈ header_mapping, dictGet new_json_values p.1 = none := by decide

theorem ingest_keys_not_ingest_values :
    ∀ p ∈ header_mapping, ∀ q ∈ header_mapping, q.2 ≠ p.1 := by decide

/-! Lemmas about the two translations. -/

theorem translateIngest_of_mem (h d : String) (hm : (h, d) ∈ header_mapping) :
    translateIngest h = d := by
  unfold translateIngest dictGetD
  rw [dictGet_of_mem_nodup header_mapping h d header_mapping_keys_nodup hm]
  rfl

theorem translateEgress_of_ingest (h d : String) (hm : (h, d) ∈ header_mapping) :
    translateEgress d = h := by
  unfold translateEgress dictGetD
  rw [ingest_egress_inverse (h, d) hm]
  rfl

theorem translateIngest_eq_cases (k : String) :
    dictGet header_mapping k = some (translateIngest k) ∨
      (dictGet header_mapping k = none ∧ translateIngest k = k) := by
  unfold translateIngest dictGetD
  cases h : dictGet header_mapping k with
  | none => exact Or.inr ⟨rfl, rfl⟩
  | some v => exact Or.inl rfl

theorem translateEgress_eq_cases (k : String) :
    dictGet csv_mapping k = some (translateEgress k) ∨
      (dictGet csv_mapping k = none ∧ translateEgress k = k) := by
  unfold translateEgress dictGetD
  cases h : dictGet csv_mapping k with
  | none => exact Or.inr ⟨rfl, rfl⟩
  | some v => exact Or.inl rfl

theorem translateEgress_of_not_mem (k : String)
    (h : k ∉ csv_mapping.map Prod.fst) : translateEgress k = k := by
  rcases translateEgress_eq_cases k with hc | hc
  · exact absurd (List.mem_map_of_mem Prod.fst (dictGet_mem _ _ _ hc)) h
  · exact hc.2

/-! Lemmas about the tabular-to-document converter. -/

theorem rowToDict_of_nodup (headers cells : List String)
    (hnd : headers.Nodup) (hlen : cells.length = headers.length) :
    rowToDict headers cells = headers.zip cells := by
  unfold rowToDict
  apply insertAll_nil_of_nodup
  rw [List.map_fst_zip headers cells (le_of_eq hlen.symm)]
  exact hnd

theorem any_snd_zip (headers cells : List String)
    (hlen : cells.length = headers.length) (f : String → Bool) :
    (headers.zip cells).any (fun p => f p.2) = cells.any f := by
  induction headers generalizing cells with
  | nil =>
    cases cells with
    | nil => rfl
    | cons c cs => simp at hlen
  | cons h hs ih =>
    cases cells with
    | nil => simp at hlen
    | cons c cs =>
      simp only [List.zip_cons_cons, List.any_cons]
      rw [ih cs (by simpa using hlen)]

theorem rowNonBlank_rowToDict (headers cells : List String)
    (hnd : headers.Nodup) (hlen : cells.length = headers.length) :
    rowNonBlank (rowToDict headers cells) = cells.any (fun v => pyStrip v != "") := by
  rw [rowToDict_of_nodup headers cells hnd hlen]
  unfold rowNonBlank
  exact any_snd_zip headers cells hlen (fun v => pyStrip v != "")

theorem csvToJsonData_eq_filter_map (headers : List String) (rows : List (List String))
    (hnd : headers.Nodup) (hlen : ∀ r ∈ rows, r.length = headers.length) :
    csvToJsonData headers rows =
      (rows.filter (fun r => r.any (fun v => pyStrip v != ""))).map
        (fun r => processRow (rowToDict headers r)) := by
  induction rows with
  | nil => rfl
  | cons r rest ih =>
    have hr := hlen r (List.mem_cons_self _ _)
    have hrest : ∀ x ∈ rest, x.length = headers.length :=
      fun x hx => hlen x (List.mem_cons_of_mem _ hx)
    simp only [csvToJsonData]
    rw [rowNonBlank_rowToDict headers r hnd hr]
    by_cases hb : r.any (fun v => pyStrip v != "") = true
    · simp [List.filter_cons, hb, ih hrest]
    · simp [List.filter_cons, hb, ih hrest]

theorem mem_csvToJsonData (headers : List String) (rows : List (List String))
    (cells : List String) (hmem : cells ∈ rows)
    (hnb : rowNonBlank (rowToDict headers cells) = true) :
    processRow (rowToDict headers cells) ∈ csvToJsonData headers rows := by
  induction rows with
  | nil => simp at hmem
  | cons r rest ih =>
    simp only [csvToJsonData]
    rcases List.mem_cons.mp hmem with heq | hmem'
    · subst heq
      rw [if_pos hnb]
      exact List.mem_cons_self _ _
    · by_cases hb : rowNonBlank (rowToDict headers r) = true
      · rw [if_pos hb]
        exact List.mem_cons_of_mem _ (ih hmem')
      · rw [if_neg hb]
        exact ih hmem'

theorem processRow_eq_insertAll (row : Record) :
    processRow row =
      insertAll [] (row.map (fun p => (translateIngest p.1, p.2)) ++ new_json_values) := by
  rw [insertAll_append]
  rfl

theorem dictGet_processRow (row : Record) (k : String) :
    dictGet (processRow row) k =
      match lookupLast new_json_values k with
      | some v => some v
      | none => lookupLast (row.map (fun p => (translateIngest p.1, p.2))) k := by
  rw [processRow_eq_insertAll, dictGet_insertAll_nil, lookupLast_append]

theorem dictGet_processRow_default (row : Record) (k v : String)
    (h : (k, v) ∈ new_json_values) :
    dictGet (processRow row) k = some v := by
  rw [dictGet_processRow]
  have huniq : ∀ p ∈ new_json_values, p.1 = k → p.2 = v := by
    intro p hp hpk
    have hkp : (k, p.2) ∈ new_json_values := by
      cases p
      simp only at hpk
      subst hpk
      exact hp
    exact nodupKeys_functional new_json_values k p.2 v new_json_values_keys_nodup hkp h
  rw [lookupLast_unique new_json_values k v h huniq]

/-! Lemmas about the document-to-tabular converter and its header order. -/

theorem firstOccurrences_nil : firstOccurrences [] = [] := rfl

theorem firstOccurrences_cons (a : String) (l : List String) :
    firstOccurrences (a :: l) = a :: (firstOccurrences l).filter (fun x => x != a) := rfl

theorem mem_of_mem_firstOccurrences (l : List String) (x : String)
    (h : x ∈ firstOccurrences l) : x ∈ l := by
  induction l with
  | nil => simp [firstOccurrences_nil] at h
  | cons a t ih =>
    rw [firstOccurrences_cons] at h
    rcases List.mem_cons.mp h with heq | h'
    · exact heq ▸ List.mem_cons_self _ _
    · exact List.mem_cons_of_mem _ (ih (List.mem_of_mem_filter h'))

theorem foldl_addUnseen (ks : List String) (seen out : List String) :
    (ks.foldl addUnseen (seen, out)).2 =
      out ++ (firstOccurrences ks).filter (fun k => !(seen.contains k)) := by
  induction ks generalizing seen out with
  | nil => simp [firstOccurrences_nil]
  | cons k rest ih =>
    rw [List.foldl_cons, firstOccurrences_cons]
    by_cases hk : seen.contains k = true
    · have hmem : k ∈ seen := List.elem_iff.mp hk
      have hstep : addUnseen (seen, out) k = (seen, out) := by simp [addUnseen, hmem]
      rw [hstep, ih, List.filter_cons]
      simp only [hk, Bool.not_true, Bool.false_eq_true, if_false]
      rw [List.filter_filter]
      congr 1
      apply List.filter_congr
      intro x hx
      by_cases hxk : x = k
      · subst hxk
        simp [hk, hmem]
      · simp [hxk]
    · have hk' : seen.contains k = false := by
        cases h : seen.contains k
        · rfl
        · exact absurd h hk
      have hnmem : k ∉ seen := fun hm => hk (List.elem_iff.mpr hm)
      have hstep : addUnseen (seen, out) k = (k :: seen, out ++ [k]) := by
        simp [addUnseen, hnmem]
      rw [hstep, ih, List.filter_cons]
      simp only [hk', Bool.not_false, if_true]
      rw [List.append_assoc, List.singleton_append, List.filter_filter]
      congr 2
      apply List.filter_congr
      intro x hx
      by_cases hxk : x = k
      · subst hxk
        simp [List.contains_cons]
      · simp [List.contains_cons, hxk, Ne.symm hxk]

theorem keyInData_iff_mem_flatMap (data : List Record) (k : String) :
    keyInData data k = true ↔ k ∈ data.flatMap recordKeys := by
  simp [keyInData, List.any_eq_true, List.mem_flatMap, List.elem_iff]

theorem unmappedKeys_spec (data : List Record) :
    unmappedKeys data =
      (firstOccurrences (data.flatMap recordKeys)).filter
        (fun k => !((csv_mapping.map Prod.fst).contains k)) := by
  unfold unmappedKeys
  rw [foldl_addUnseen]
  rw [List.nil_append]
  apply List.filter_congr
  intro x hx
  have hxd : x ∈ data.flatMap recordKeys := mem_of_mem_firstOccurrences _ _ hx
  have hkid : keyInData data x = true := (keyInData_iff_mem_flatMap data x).mpr hxd
  congr 1
  by_cases hc : x ∈ csv_mapping.map Prod.fst
  · have h1 : x ∈ mappedKeys data := List.mem_filter.mpr ⟨hc, hkid⟩
    have h2 : (mappedKeys data).contains x = true := List.elem_iff.mpr h1
    have h3 : (csv_mapping.map Prod.fst).contains x = true := List.elem_iff.mpr hc
    rw [h2, h3]
  · have h1 : x ∉ mappedKeys data := by
      intro hm
      exact hc (List.mem_filter.mp hm).1
    have h2 : (mappedKeys data).contains x = false := by
      cases h : (mappedKeys data).contains x
      · rfl
      · exact absurd (List.elem_iff.mp h) h1
    have h3 : (csv_mapping.map Prod.fst).contains x = false := by
      cases h : (csv_mapping.map Prod.fst).contains x
      · rfl
      · exact absurd (List.elem_iff.mp h) hc
    rw [h2, h3]

theorem headersOf_spec (data : List Record) :
    headersOf data =
      ((csv_mapping.map Prod.fst).filter (fun k => keyInData data k)).map translateEgress ++
        (firstOccurrences (data.flatMap recordKeys)).filter
          (fun k => !((csv_mapping.map Prod.fst).contains k)) := by
  unfold headersOf combinedKeys
  rw [List.map_append]
  congr 1
  rw [unmappedKeys_spec]
  have hid : ∀ x ∈ (firstOccurrences (data.flatMap recordKeys)).filter
      (fun k => !((csv_mapping.map Prod.fst).contains k)), translateEgress x = x := by
    intro x hx
    have hb : (!((csv_mapping.map Prod.fst).contains x)) = true := (List.mem_filter.mp hx).2
    have hnm : x ∉ csv_mapping.map Prod.fst := by
      intro hm
      have hc : (csv_mapping.map Prod.fst).contains x = true := List.elem_iff.mpr hm
      rw [hc] at hb
      cases hb
    exact translateEgress_of_not_mem x hnm
  rw [List.map_congr_left hid]
  simp

theorem mem_headersOf (data : List Record) (r : Record) (k : String)
    (hr : r ∈ data) (hk : k ∈ recordKeys r) (hcsv : k ∈ csv_mapping.map Prod.fst) :
    translateEgress k ∈ headersOf data := by
  unfold headersOf combinedKeys
  apply List.mem_map_of_mem
  apply List.mem_append_left
  unfold mappedKeys
  apply List.mem_filter.mpr
  refine ⟨hcsv, ?_⟩
  apply List.any_eq_true.mpr
  exact ⟨r, hr, List.elem_iff.mpr hk⟩

theorem unmapped_empty_of_all_mapped (d : List Record)
    (hm : ∀ r ∈ d, ∀ p ∈ r, p.1 ∈ csv_mapping.map Prod.fst) :
    (firstOccurrences (d.flatMap recordKeys)).filter
      (fun k => !((csv_mapping.map Prod.fst).contains k)) = [] := by
  apply List.filter_eq_nil_iff.mpr
  intro k hk
  have hkd : k ∈ d.flatMap recordKeys := mem_of_mem_firstOccurrences _ _ hk
  rcases List.mem_flatMap.mp hkd with ⟨r, hr, hkr⟩
  rcases List.mem_map.mp hkr with ⟨p, hp, hpk⟩
  have hmem : k ∈ csv_mapping.map Prod.fst := hpk ▸ hm r hr p hp
  have hc : (csv_mapping.map Prod.fst).contains k = true := List.elem_iff.mpr hmem
  rw [hc]
  simp

theorem keyInData_congr_of_union_eq (d1 d2 : List Record)
    (hunion : (d1.flatMap recordKeys).toFinset = (d2.flatMap recordKeys).toFinset)
    (k : String) : keyInData d1 k = keyInData d2 k := by
  have hiff : k ∈ d1.flatMap recordKeys ↔ k ∈ d2.flatMap recordKeys := by
    constructor <;> intro h
    · have h' := List.mem_toFinset.mpr h
      rw [hunion] at h'
      exact List.mem_toFinset.mp h'
    · have h' := List.mem_toFinset.mpr h
      rw [← hunion] at h'
      exact List.mem_toFinset.mp h'
  cases h1 : keyInData d1 k <;> cases h2 : keyInData d2 k
  · rfl
  · have h3 := (keyInData_iff_mem_flatMap d1 k).mpr
      (hiff.mpr ((keyInData_iff_mem_flatMap d2 k).mp h2))
    rw [h1] at h3
    cases h3
  · have h3 := (keyInData_iff_mem_flatMap d2 k).mpr
      (hiff.mp ((keyInData_iff_mem_flatMap d1 k).mp h1))
    rw [h2] at h3
    cases h3
  · rfl

theorem headersOf_deterministic (d1 d2 : List Record)
    (hunion : (d1.flatMap recordKeys).toFinset = (d2.flatMap recordKeys).toFinset)
    (hm1 : ∀ r ∈ d1, ∀ p ∈ r, p.1 ∈ csv_mapping.map Prod.fst)
    (hm2 : ∀ r ∈ d2, ∀ p ∈ r, p.1 ∈ csv_mapping.map Prod.fst) :
    headersOf d1 = headersOf d2 := by
  rw [headersOf_spec, headersOf_spec,
    unmapped_empty_of_all_mapped d1 hm1, unmapped_empty_of_all_mapped d2 hm2]
  congr 2
  apply List.filter_congr
  intro k _
  exact keyInData_congr_of_union_eq d1 d2 hunion k

/-! Claim theorems. -/

/-- C2: every record csv_to_json emits carries every key of new_json_values
with its default value, the defaults overwriting any same-named key produced
by header remapping; in particular enrichmentStatus maps to Success no matter
what the source row supplied under that name. -/
theorem claim_C2_default_injection_overwrites (row : Record) (k v : String)
    (h : (k, v) ∈ new_json_values) :
    dictGet (processRow row) k = some v :=
  dictGet_processRow_default row k v h

/-- Witness for C2: a source row that literally supplies enrichmentStatus set
to Failure still comes out with enrichmentStatus set to Success. -/
theorem claim_C2_witness :
    dictGet (processRow [("enrichmentStatus", "Failure")]) "enrichmentStatus" =
      some "Success" :=
  claim_C2_default_injection_overwrites [("enrichmentStatus", "Failure")]
    "enrichmentStatus" "Success" (by decide)

/-- C3: the header row json_to_csv emits equals the keys of csv_mapping that
occur in the union of record keys, in the declaration order of csv_mapping,
translated to tabular names, followed by the remaining keys in order of first
appearance across the record sequence, untranslated. -/
theorem claim_C3_header_order (data : List Record) :
    headersOf data =
      ((csv_mapping.map Prod.fst).filter (fun k => keyInData data k)).map translateEgress ++
        (firstOccurrences (data.flatMap recordKeys)).filter
          (fun k => !((csv_mapping.map Prod.fst).contains k)) :=
  headersOf_spec data

/-- C4: on a well-formed input table (distinct header names, rectangular
rows), csv_to_json emits exactly one record per data row having some cell
non-empty after trimming, evaluated on the raw cells, in input row order;
fully blank rows contribute nothing. -/
theorem claim_C4_blank_row_elimination (headers : List String)
    (rows : List (List String)) (hnd : headers.Nodup)
    (hlen : ∀ r ∈ rows, r.length = headers.length) :
    csvToJsonData headers rows =
      (rows.filter (fun r => r.any (fun v => pyStrip v != ""))).map
        (fun r => processRow (rowToDict headers r)) :=
  csvToJsonData_eq_filter_map headers rows hnd hlen

/-- Witness for C4: a concrete table with one non-blank row, one empty row
and one whitespace-only row yields exactly the one surviving record. -/
theorem claim_C4_witness :
    csvToJsonData ["Supplier Company", "Supplier Email"]
        [["Acme", "a@x.com"], ["", ""], [" ", "\t"]] =
      [processRow [("Supplier Company", "Acme"), ("Supplier Email", "a@x.com")]] :=
  (claim_C4_blank_row_elimination ["Supplier Company", "Supplier Email"]
    [["Acme", "a@x.com"], ["", ""], [" ", "\t"]] (by decide) (by decide)).trans (by rfl)

/-- C6: both translations are total lookups with identity fallback: a name
absent from the table comes back unchanged. -/
theorem claim_C6_translate_identity_fallback (x : String) :
    (dictGet header_mapping x = none → translateIngest x = x) ∧
      (dictGet csv_mapping x = none → translateEgress x = x) := by
  constructor
  · intro h
    rcases translateIngest_eq_cases x with hc | hc
    · rw [h] at hc
      cases hc
    · exact hc.2
  · intro h
    rcases translateEgress_eq_cases x with hc | hc
    · rw [h] at hc
      cases hc
    · exact hc.2

/-- Witness for C6: a name in neither table passes through both translations
unchanged. -/
theorem claim_C6_witness :
    translateIngest "Custom Note" = "Custom Note" ∧
      translateEgress "Custom Note" = "Custom Note" :=
  ⟨(claim_C6_translate_identity_fallback "Custom Note").1 (by decide),
    (claim_C6_translate_identity_fallback "Custom Note").2 (by decide)⟩

/-- C7: on a well-formed table, count_records applies the same blank-row
predicate as csv_to_json (skip one header row, count rows with some trimmed
cell non-empty), so the reported count equals the number of emitted records. -/
theorem claim_C7_count_matches_conversion (headerRow : List String)
    (rows : List (List String)) (hnd : headerRow.Nodup)
    (hlen : ∀ r ∈ rows, r.length = headerRow.length) :
    countRecords (headerRow :: rows) = (csvToJsonData headerRow rows).length := by
  rw [csvToJsonData_eq_filter_map headerRow rows hnd hlen]
  unfold countRecords
  rw [List.length_map]

/-- Witness for C7: on a concrete file the count equals the number of
emitted records. -/
theorem claim_C7_witness :
    countRecords [["Supplier Company"], ["Acme"], [""], [" "], ["Globex"]] =
      (csvToJsonData ["Supplier Company"] [["Acme"], [""], [" "], ["Globex"]]).length :=
  claim_C7_count_matches_conversion ["Supplier Company"]
    [["Acme"], [""], [" "], ["Globex"]] (by decide) (by decide)

/-- C8: every value of the ingest table header_mapping also appears as a key
of the egress table csv_mapping. -/
theorem claim_C8_ingest_values_are_egress_keys :
    ∀ p ∈ header_mapping, p.2 ∈ csv_mapping.map Prod.fst := by decide

/-- Witness for C8: the first ingest entry maps Supplier Company to
companyName, and companyName is an egress key. -/
theorem claim_C8_witness :
    ("Supplier Company", "companyName") ∈ header_mapping ∧
      ("companyName" : String) ∈ csv_mapping.map Prod.fst :=
  ⟨by decide, claim_C8_ingest_values_are_egress_keys ("Supplier Company", "companyName") (by decide)⟩

/-- Counterexample for C9: the ingest table does not have fourteen entries. -/
theorem claim_C9_counterexample : header_mapping.length ≠ 14 := by decide

/-- C9 as amended: the ingest table header_mapping has exactly thirteen
entries, the egress table csv_mapping has exactly thirty-seven, and the
egress table covers both the ingest vocabulary (all header_mapping values
are csv_mapping keys) and the enrichment-only fields (all new_json_values
keys are csv_mapping keys). -/
theorem claim_C9_table_sizes :
    header_mapping.length = 13 ∧ csv_mapping.length = 37 ∧
      header_mapping.all (fun p => (csv_mapping.map Prod.fst).contains p.2) = true ∧
      new_json_values.all (fun p => (csv_mapping.map Prod.fst).contains p.1) = true := by
  refine ⟨by decide, by decide, by decide, by decide⟩

/-- C10: a record holding both a document-vocabulary key and the tabular
header it translates to makes json_to_csv emit that header twice, and the
re-keying dict collapses the two values, losing one of them: with keys
companyName and Supplier Company, the value under companyName never reaches
the output row. -/
theorem claim_C10_header_collision :
    headersOf [[("companyName", "A"), ("Supplier Company", "B")]] =
        ["Supplier Company", "Supplier Company"] ∧
      rekeyRecord [("companyName", "A"), ("Supplier Company", "B")] =
        [("Supplier Company", "B")] ∧
      outputRow [("companyName", "A"), ("Supplier Company", "B")]
          (headersOf [[("companyName", "A"), ("Supplier Company", "B")]]) = ["B", "B"] ∧
      "A" ∉ outputRow [("companyName", "A"), ("Supplier Company", "B")]
          (headersOf [[("companyName", "A"), ("Supplier Company", "B")]]) := by
  refine ⟨by decide, by decide, by decide, by decide⟩

/-- Counterexample for C5: two documents with the same union of field names,
introduced in a different order, produce different header orderings, because
unmapped fields are ordered by first appearance. -/
theorem claim_C5_counterexample :
    ([[("x", "1"), ("y", "2")]].flatMap recordKeys).toFinset =
        ([[("y", "2"), ("x", "1")]].flatMap recordKeys).toFinset ∧
      headersOf [[("x", "1"), ("y", "2")]] ≠ headersOf [[("y", "2"), ("x", "1")]] := by
  refine ⟨by decide, by decide⟩

/-- C5 as amended: for two documents with the same union of field names all
of which are egress-table keys, json_to_csv produces identical header
orderings, regardless of the order records introduce the fields. -/
theorem claim_C5_header_determinism_mapped (d1 d2 : List Record)
    (hunion : (d1.flatMap recordKeys).toFinset = (d2.flatMap recordKeys).toFinset)
    (hm1 : ∀ r ∈ d1, ∀ p ∈ r, p.1 ∈ csv_mapping.map Prod.fst)
    (hm2 : ∀ r ∈ d2, ∀ p ∈ r, p.1 ∈ csv_mapping.map Prod.fst) :
    headersOf d1 = headersOf d2 :=
  headersOf_deterministic d1 d2 hunion hm1 hm2

/-- Witness for C5: two documents introducing companyName and phone in
different shapes produce the same headers. -/
theorem claim_C5_witness :
    headersOf [[("companyName", "A")], [("phone", "B")]] =
      headersOf [[("phone", "B"), ("companyName", "A")]] :=
  claim_C5_header_determinism_mapped [[("companyName", "A")], [("phone", "B")]]
    [[("phone", "B"), ("companyName", "A")]] (by decide) (by decide) (by decide)

theorem lookupLast_of_mem_nodupKeys (l : Record) (k v : String)
    (hnd : (l.map Prod.fst).Nodup) (hmem : (k, v) ∈ l) :
    lookupLast l k = some v := by
  apply lookupLast_unique l k v hmem
  intro p hp hpk
  have hkp : (k, p.2) ∈ l := by
    cases p
    simp only at hpk
    subst hpk
    exact hp
  exact nodupKeys_functional l k p.2 v hnd hkp hmem

/-- Counterexample for C1: a well-formed CSV whose second column is literally
named companyName makes the mapped_row dict collide with the remapped
Supplier Company column, so the Supplier Company value Acme does not survive
the round trip: the output cell under Supplier Company is Other. -/
theorem claim_C1_counterexample :
    ("Supplier Company", "companyName") ∈ header_mapping ∧
      dictGet new_json_values "companyName" = none ∧
      dictGet (rowToDict ["Supplier Company", "companyName"] ["Acme", "Other"])
        "Supplier Company" = some "Acme" ∧
      outputCell (processRow (rowToDict ["Supplier Company", "companyName"]
        ["Acme", "Other"])) "Supplier Company" = "Other" ∧
      ("Other" : String) ≠ "Acme" := by
  refine ⟨by decide, by decide, by decide, by decide, by decide⟩

/-- C1 as amended: on a well-formed CSV whose column names translate to
pairwise distinct document names (in particular no other column is literally
named with a mapped document name), every value supplied under an
ingest-table column reappears unchanged under that same tabular header in
the output row of the corresponding surviving record, provided the mapped
document name is not a default-field key. -/
theorem claim_C1_roundtrip (headers : List String) (rows : List (List String))
    (cells : List String) (h d v : String)
    (hmem : (h, d) ∈ header_mapping)
    (hdef : dictGet new_json_values d = none)
    (hnodup : (headers.map translateIngest).Nodup)
    (hlen : cells.length = headers.length)
    (hrow : cells ∈ rows)
    (hnb : cells.any (fun s => pyStrip s != "") = true)
    (hcell : dictGet (rowToDict headers cells) h = some v) :
    h ∈ headersOf (csvToJsonData headers rows) ∧
      outputCell (processRow (rowToDict headers cells)) h = v := by
  have hhnd : headers.Nodup := hnodup.of_map
  have hzip : rowToDict headers cells = headers.zip cells :=
    rowToDict_of_nodup headers cells hhnd hlen
  have hlook : lookupLast (headers.zip cells) h = some v := by
    rw [← dictGet_insertAll_nil]
    exact hcell
  have hvzip : (h, v) ∈ headers.zip cells := lookupLast_mem _ _ _ hlook
  have hmpkeys :
      ((headers.zip cells).map (fun p => (translateIngest p.1, p.2))).map Prod.fst =
        headers.map translateIngest := by
    have h1 : (headers.zip cells).map Prod.fst = headers :=
      List.map_fst_zip headers cells (le_of_eq hlen.symm)
    have h2 :
        ((headers.zip cells).map (fun p => (translateIngest p.1, p.2))).map Prod.fst =
          ((headers.zip cells).map Prod.fst).map translateIngest := by
      rw [List.map_map, List.map_map]
      rfl
    rw [h2, h1]
  have hmpnodup :
      (((headers.zip cells).map (fun p => (translateIngest p.1, p.2))).map Prod.fst).Nodup := by
    rw [hmpkeys]
    exact hnodup
  have htI : translateIngest h = d := translateIngest_of_mem h d hmem
  have hmv : (d, v) ∈ (headers.zip cells).map (fun p => (translateIngest p.1, p.2)) := by
    have hv' : (translateIngest h, v) ∈
        (headers.zip cells).map (fun p => (translateIngest p.1, p.2)) := by
      simpa using List.mem_map_of_mem (fun p => (translateIngest p.1, p.2)) hvzip
    rw [htI] at hv'
    exact hv'
  have hlookmp :
      lookupLast ((headers.zip cells).map (fun p => (translateIngest p.1, p.2))) d = some v :=
    lookupLast_of_mem_nodupKeys _ d v hmpnodup hmv
  have hforalldef : ∀ p ∈ new_json_values, p.1 ≠ d := (dictGet_eq_none_iff _ _).mp hdef
  have hgetr : dictGet (processRow (headers.zip cells)) d = some v := by
    rw [dictGet_processRow, lookupLast_eq_none_of_forall new_json_values d hforalldef]
    exact hlookmp
  have hr : (d, v) ∈ processRow (headers.zip cells) := dictGet_mem _ _ _ hgetr
  have hrnodup : ((processRow (headers.zip cells)).map Prod.fst).Nodup := by
    rw [processRow_eq_insertAll]
    exact keysNodup_insertAll_nil _
  have htE : translateEgress d = h := translateEgress_of_ingest h d hmem
  have hhv : (h, v) ∈ (processRow (headers.zip cells)).map
      (fun p => (translateEgress p.1, p.2)) := by
    have hv' : (translateEgress d, v) ∈ (processRow (headers.zip cells)).map
        (fun p => (translateEgress p.1, p.2)) := by
      simpa using List.mem_map_of_mem (fun p => (translateEgress p.1, p.2)) hr
    rw [htE] at hv'
    exact hv'
  have huniq : ∀ q ∈ (processRow (headers.zip cells)).map
      (fun p => (translateEgress p.1, p.2)), q.1 = h → q.2 = v := by
    intro q hq hqh
    rcases List.mem_map.mp hq with ⟨yw, hyw, hline⟩
    obtain ⟨y, w⟩ := yw
    have hy1 : translateEgress y = q.1 := by
      rw [← hline]
    have hy2 : w = q.2 := by
      rw [← hline]
    have hq1 : translateEgress y = h := hy1.trans hqh
    rcases translateEgress_eq_cases y with hc | hc
    · rw [hq1] at hc
      have hyc : (y, h) ∈ csv_mapping := dictGet_mem _ _ _ hc
      have hyd : y = d := egress_preimage_unique (h, d) hmem (y, h) hyc rfl
      subst hyd
      have hwv : w = v := nodupKeys_functional _ y w v hrnodup hyw hr
      rw [← hy2, hwv]
    · have hyh : y = h := hc.2.symm.trans hq1
      subst hyh
      rw [processRow_eq_insertAll] at hyw
      have hallp : (y, w) ∈
          (headers.zip cells).map (fun p => (translateIngest p.1, p.2)) ++ new_json_values :=
        mem_insertAll_nil _ _ hyw
      rcases List.mem_append.mp hallp with hmp' | hdef'
      · rcases List.mem_map.mp hmp' with ⟨xu, hxu, hx2⟩
        obtain ⟨x, u⟩ := xu
        have hx1 : translateIngest x = y := congrArg Prod.fst hx2
        rcases translateIngest_eq_cases x with hic | hic
        · rw [hx1] at hic
          have hxh : (x, y) ∈ header_mapping := dictGet_mem _ _ _ hic
          exact absurd rfl (ingest_keys_not_ingest_values (y, d) hmem (x, y) hxh)
        · obtain ⟨hicn, hici⟩ := hic
          have hxh : x = y := hici.symm.trans hx1
          rw [hxh] at hicn
          have hhd : dictGet header_mapping y = some d :=
            dictGet_of_mem_nodup _ _ _ header_mapping_keys_nodup hmem
          rw [hhd] at hicn
          cases hicn
      · exact absurd rfl
          ((dictGet_eq_none_iff new_json_values y).mp
            (ingest_key_not_default (y, d) hmem) (y, w) hdef')
  have hleq : lookupLast ((processRow (headers.zip cells)).map
      (fun p => (translateEgress p.1, p.2))) h = some v :=
    lookupLast_unique _ h v hhv huniq
  constructor
  · have hnbd : rowNonBlank (rowToDict headers cells) = true := by
      rw [rowNonBlank_rowToDict headers cells hhnd hlen]
      exact hnb
    have hrin : processRow (rowToDict headers cells) ∈ csvToJsonData headers rows :=
      mem_csvToJsonData headers rows cells hrow hnbd
    have hdk : d ∈ recordKeys (processRow (rowToDict headers cells)) := by
      unfold recordKeys
      rw [hzip]
      simpa using List.mem_map_of_mem Prod.fst hr
    have hdc : d ∈ csv_mapping.map Prod.fst := by
      have hinv := ingest_egress_inverse (h, d) hmem
      simpa using List.mem_map_of_mem Prod.fst (dictGet_mem _ _ _ hinv)
    have hfin := mem_headersOf (csvToJsonData headers rows) _ d hrin hdk hdc
    rw [htE] at hfin
    exact hfin
  · unfold outputCell dictGetD
    rw [hzip]
    unfold rekeyRecord
    rw [dictGet_insertAll_nil, hleq]
    rfl

/-- Witness for C1: a two-column CSV row with Supplier Company set to Acme
survives the round trip, and the output cell under Supplier Company is Acme. -/
theorem claim_C1_witness :
    "Supplier Company" ∈ headersOf
        (csvToJsonData ["Supplier Company", "Supplier Email"] [["Acme", "a@x.com"]]) ∧
      outputCell (processRow (rowToDict ["Supplier Company", "Supplier Email"]
        ["Acme", "a@x.com"])) "Supplier Company" = "Acme" :=
  claim_C1_roundtrip ["Supplier Company", "Supplier Email"] [["Acme", "a@x.com"]]
    ["Acme", "a@x.com"] "Supplier Company" "companyName" "Acme"
    (by decide) (by decide) (by decide) (by decide) (by decide) (by decide) (by decide)

end DataEnrichment
